import Mathlib

/-!
Verification of the Step Functions composition layer of
aibs-informatics-cdk-lib.

Each Lean definition is a shallow embedding of a function or construct
wiring from the repository (file and symbol named in its doc comment);
theorems at the end of the file settle the specification claims against
those definitions.
-/

/- ===================== DEFINITIONS ===================== -/

/-! ## JsonReferencePath (constructs_/sfn/utils.py)

The Python class is a `str` subclass whose constructor applies
`sanitize`, which runs `re.sub(r"[$.]+", ".", s).strip(".")`:
every maximal run of the characters `$` and `.` is replaced by a single
`.`, then leading and trailing `.` are removed.
-/

/-- Character class of the regex `[$.]+` in `JsonReferencePath.sanitize`. -/
def isSepChar (c : Char) : Bool := c == '$' || c == '.'

/-- Replace every maximal run of `[$.]` characters by a single period:
the `re.sub(r"[$.]+", ".", s)` step of `sanitize`. -/
def collapseSeps : List Char → List Char
  | [] => []
  | [c] => if isSepChar c then ['.'] else [c]
  | c1 :: c2 :: rest =>
    if isSepChar c1 && isSepChar c2 then collapseSeps (c2 :: rest)
    else (if isSepChar c1 then '.' else c1) :: collapseSeps (c2 :: rest)

/-- The character stripped at the edges by `.strip(".")`. -/
def isDotChar (c : Char) : Bool := c == '.'

/-- Remove all trailing periods (the right half of `.strip(".")`). -/
def dropEndDots : List Char → List Char
  | [] => []
  | c :: rest =>
    match dropEndDots rest with
    | [] => if isDotChar c then [] else [c]
    | r => c :: r

/-- List-level body of `JsonReferencePath.sanitize`. -/
def sanitizeChars (l : List Char) : List Char :=
  dropEndDots ((collapseSeps l).dropWhile isDotChar)

/-- `JsonReferencePath.sanitize` (classmethod of `JsonReferencePath`,
constructs_/sfn/utils.py): collapse separator runs, strip edge periods. -/
def sanitize (s : String) : String := String.mk (sanitizeChars s.data)

/-- `JsonReferencePath.as_key`: appends the key marker `.$` to a non-empty
path; a falsy (empty) path yields the bare root marker `$`. -/
def as_key (p : String) : String := if p = "" then "$" else p ++ ".$"

/-- `JsonReferencePath.as_reference`: prepends the dereference marker `$.`
to a non-empty path; a falsy (empty) path yields the bare root marker. -/
def as_reference (p : String) : String := if p = "" then "$" else "$." ++ p

/-- A list whose first character (if any) is not a period. -/
def headNotDot : List Char → Prop
  | [] => True
  | c :: _ => isDotChar c = false

/-- A list whose last character (if any) is not a period. -/
def lastNotDot : List Char → Prop
  | [] => True
  | [c] => isDotChar c = false
  | _ :: rest => lastNotDot rest

/-- No two adjacent characters are both in the `[$.]` class. -/
def noAdjSeps : List Char → Prop
  | [] => True
  | [_] => True
  | c1 :: c2 :: rest => ¬(isSepChar c1 = true ∧ isSepChar c2 = true) ∧ noAdjSeps (c2 :: rest)

/-- The list contains no dollar character. -/
def noDollar (l : List Char) : Prop := ∀ c ∈ l, c ≠ '$'

/-! ## JSON parameter trees

The sfn builders manipulate JSON-like parameter structures (dicts, lists,
strings, numbers, booleans, null). `Json` is the shallow embedding of such
trees; numbers are embedded as integers.
-/

inductive Json where
  | null
  | bool (b : Bool)
  | num (n : Int)
  | str (s : String)
  | arr (elems : List Json)
  | obj (fields : List (String × Json))

/-- Model of Python `str.startswith`. -/
def startsWithL (p s : String) : Bool := p.data.isPrefixOf s.data

/-- Output trees of `convert_reference_paths`: identical to `Json` except
that a string may be tagged as a dereference expression (the result of
`sfn.JsonPath.string_at`). -/
inductive CJson where
  | null
  | bool (b : Bool)
  | num (n : Int)
  | str (s : String)
  | ref (s : String)
  | arr (elems : List CJson)
  | obj (fields : List (String × CJson))

mutual
/-- `convert_reference_paths` (constructs_/sfn/utils.py): recursively walk
dicts and lists; a string is tagged as a dereference via
`sfn.JsonPath.string_at` exactly when it starts with `$` or `States.` and
does not start with `${Token`; every other scalar passes through. -/
def convert_reference_paths : Json → CJson
  | .null => .null
  | .bool b => .bool b
  | .num n => .num n
  | .str s =>
    if (startsWithL "$" s || startsWithL "States." s) && !startsWithL "$\x7bToken" s
    then .ref s else .str s
  | .arr xs => .arr (convert_reference_paths_list xs)
  | .obj fs => .obj (convert_reference_paths_fields fs)
/-- List branch of `convert_reference_paths`. -/
def convert_reference_paths_list : List Json → List CJson
  | [] => []
  | x :: xs => convert_reference_paths x :: convert_reference_paths_list xs
/-- Dict branch of `convert_reference_paths`. -/
def convert_reference_paths_fields : List (String × Json) → List (String × CJson)
  | [] => []
  | (k, v) :: fs => (k, convert_reference_paths v) :: convert_reference_paths_fields fs
end

mutual
/-- The identity injection of `Json` into `CJson` (no tagging): the shape
an unchanged tree takes in the output type. -/
def embedJson : Json → CJson
  | .null => .null
  | .bool b => .bool b
  | .num n => .num n
  | .str s => .str s
  | .arr xs => .arr (embedJsonList xs)
  | .obj fs => .obj (embedJsonFields fs)
/-- List branch of `embedJson`. -/
def embedJsonList : List Json → List CJson
  | [] => []
  | x :: xs => embedJson x :: embedJsonList xs
/-- Dict branch of `embedJson`. -/
def embedJsonFields : List (String × Json) → List (String × CJson)
  | [] => []
  | (k, v) :: fs => (k, embedJson v) :: embedJsonFields fs
end

/-- A string scalar that the claim calls literal: it starts neither with
the root marker `$` nor with the function-call marker `States.`. -/
def isLiteralString (s : String) : Bool :=
  !startsWithL "$" s && !startsWithL "States." s

mutual
/-- Every string scalar of the tree is literal (claim C3's hypothesis). -/
def allStringsLiteral : Json → Bool
  | .null => true
  | .bool _ => true
  | .num _ => true
  | .str s => isLiteralString s
  | .arr xs => allStringsLiteralList xs
  | .obj fs => allStringsLiteralFields fs
/-- List branch of `allStringsLiteral`. -/
def allStringsLiteralList : List Json → Bool
  | [] => true
  | x :: xs => allStringsLiteral x && allStringsLiteralList xs
/-- Dict branch of `allStringsLiteral`. -/
def allStringsLiteralFields : List (String × Json) → Bool
  | [] => true
  | (_, v) :: fs => allStringsLiteral v && allStringsLiteralFields fs
end

/-- Whether a converted scalar is tagged as a dereference expression. -/
def isRefTagged : CJson → Bool
  | .ref _ => true
  | _ => false

/-! ## S3Operation.put_payload default key (constructs_/sfn/states/s3.py)

With no explicit key, `put_payload` generates
`sfn.JsonPath.format("{}/{}", sfn.JsonPath.execution_name, sfn.JsonPath.uuid())`,
i.e. the runtime key is the execution name, a slash, and a fresh UUID.
`generated_payload_key` is that runtime value as a function of the two
engine-supplied components.
-/

/-- Runtime value of the default `put_payload` object key
`States.Format` template for a given execution name and UUID. -/
def generated_payload_key (execName uuid : String) : String :=
  execName ++ "/" ++ uuid

/-! ## SubmitJobFragment control-flow graph
(constructs_/sfn/fragments/batch.py)

`SubmitJobFragment.__init__` wires: `register.next(submit).next(deregister)`
with `submit.add_catch(try_catch_deregister.next(sfn.Fail ...), errors=["States.ALL"])`.
Each of `register`, `submit`, `deregister`, `deregisterCatch` stands for the
corresponding enclosed sub-chain; an uncaught error in any of them ends the
execution (`errState`), normal completion of the final deregister ends it
(`doneState`), and the catch path ends in the explicit `sfn.Fail` state
(`failState`).
-/

inductive SJState where
  | register
  | submit
  | deregister
  | deregisterCatch
  | failState
  | doneState
  | errState
deriving DecidableEq

/-- Transition function of the `SubmitJobFragment` graph: the Boolean is
the outcome (success/failure) of the current state. Terminal states map to
themselves (never consulted by `runSubmitJob`). -/
def nextState : SJState → Bool → SJState
  | .register, true => .submit
  | .register, false => .errState
  | .submit, true => .deregister
  | .submit, false => .deregisterCatch
  | .deregister, true => .doneState
  | .deregister, false => .errState
  | .deregisterCatch, true => .failState
  | .deregisterCatch, false => .errState
  | s, _ => s

/-- Terminal states of the graph. -/
def isTerminalState : SJState → Bool
  | .failState => true
  | .doneState => true
  | .errState => true
  | _ => false

/-- Run the graph from a state, consuming one outcome per non-terminal
state; `some trace` is returned exactly for complete executions (enough
outcomes to reach a terminal state). -/
def runSubmitJob : SJState → List Bool → Option (List SJState)
  | s, bs =>
    if isTerminalState s then some [s]
    else
      match bs with
      | [] => none
      | b :: rest => (runSubmitJob (nextState s b) rest).map (fun t => s :: t)

/-- Number of deregister steps (main chain or catch chain) in a trace. -/
def countDeregisterStates (t : List SJState) : Nat :=
  t.count SJState.deregister + t.count SJState.deregisterCatch

/-! ## Mount point configuration checks
(constructs_/sfn/fragments/informatics.py)
-/

/-- Model of `MountPointConfiguration` (constructs_/efs/file_system.py):
only its identity matters for the validation logic; instances are truthy
Python objects. -/
structure MountPointConfiguration where
  mount_point : String
  file_system_id : String
  access_point_id : String

/-- Python truthiness of an optional list argument (`None` and `[]` are
falsy). -/
def truthyOptList {α : Type} : Option (List α) → Bool
  | none => false
  | some l => !l.isEmpty

/-- The chain states `BatchInvokedLambdaFunction.__init__` creates, in
source order, after the validation block. -/
def batch_invoked_lambda_function_nodes : List String :=
  ["Put Request to S3", "Batch Register", "Batch Submit", "Batch Deregister",
   "Get Response from S3"]

/-- `BatchInvokedLambdaFunction.__init__` (constructs_/sfn/fragments/informatics.py):
if `mount_point_configs` is truthy and `mount_points` or `volumes` is
truthy, a `ValueError` is raised; the graph states of the fragment are
created only after this validation block. -/
def batch_invoked_lambda_function_build
    (mount_point_configs : Option (List MountPointConfiguration))
    (mount_points volumes : Option (List Json)) : Except String (List String) :=
  if truthyOptList mount_point_configs then
    if truthyOptList mount_points || truthyOptList volumes then
      Except.error "Cannot specify both mount_point_configs and mount_points"
    else Except.ok batch_invoked_lambda_function_nodes
  else Except.ok batch_invoked_lambda_function_nodes

/-- The graph states `DemandExecutionFragment.__init__` creates, in source
order, after the validation block. -/
def demand_execution_nodes : List String :=
  ["Start Demand Batch Task", "Prepare Demand Scaffolding",
   "Execution Setup Steps", "Submit Batch Job",
   "Transfer Results FROM Batch Job", "Cleanup"]

/-- `DemandExecutionFragment.__init__` validation
(constructs_/sfn/fragments/informatics.py): raises `ValueError` when
`not (shared and scratch) or not (shared or scratch)` under Python
truthiness (a configuration object is truthy, `None` is falsy); graph
nodes are constructed only afterwards. -/
def demand_execution_build (shared scratch : Option MountPointConfiguration) :
    Except String (List String) :=
  if !(shared.isSome && scratch.isSome) || !(shared.isSome || scratch.isSome) then
    Except.error "If shared or scratch mount point configurations are provided,Both shared and scratch mount point configurations must be provided."
  else Except.ok demand_execution_nodes

/-! ## DemandExecutionFragment setup-parallel collapse
(constructs_/sfn/fragments/informatics.py)

The "Execution Setup Steps" parallel state has two branches (index 0:
create-definition-and-prep-job-args, index 1: map over data-sync
requests) and `result_selector={"batch_args.$": "$[0]"}`. The engine
delivers each branch's completion as an (index, output) pair in an
arbitrary completion order, but assembles the positional result array by
branch index; the selector then wraps the entry at index 0 under the key
`batch_args`.
-/

/-- Assoc-list field lookup in a JSON object. -/
def lookupField : List (String × Json) → String → Option Json
  | [], _ => none
  | (k, v) :: fs, key => if k = key then some v else lookupField fs key

/-- Field access on a JSON object value. -/
def json_field (j : Json) (key : String) : Option Json :=
  match j with
  | .obj fs => lookupField fs key
  | _ => none

/-- Engine assembly of a two-branch parallel result array: outputs are
placed by branch index, whatever the arrival (completion) order; the
parallel state completes only when both branches have. -/
def parallel_positional_results (arrivals : List (Nat × Json)) : Option (List Json) :=
  match arrivals.lookup 0, arrivals.lookup 1 with
  | some a, some b => some [a, b]
  | _, _ => none

/-- The `result_selector` `\x7b"batch_args.$": "$[0]"\x7d` of the setup
parallel, applied to the positional result array. -/
def setup_steps_result_selector (branchResults : List Json) : Json :=
  Json.obj [("batch_args", branchResults.headD Json.null)]

/-- Output of the "Execution Setup Steps" parallel state as a function of
the branch-completion arrivals. -/
def setup_steps_output (arrivals : List (Nat × Json)) : Option Json :=
  (parallel_positional_results arrivals).map setup_steps_result_selector

/-! ## Decimal rendering of machine integers

Used both for `str(int)` values in batch resource requirements and for the
JSON serializer. The digit recursion carries explicit fuel so that it is
structural (and therefore kernel-computable); `printNat n` is correct for
any fuel greater than `n`.
-/

/-- Numeric value of a decimal digit character. -/
def toDigit (c : Char) : Nat := c.toNat - 48

/-- The decimal digit character for `d < 10`. -/
def digitChar : Nat → Char
  | 0 => '0'
  | 1 => '1'
  | 2 => '2'
  | 3 => '3'
  | 4 => '4'
  | 5 => '5'
  | 6 => '6'
  | 7 => '7'
  | 8 => '8'
  | 9 => '9'
  | _ => '!'

/-- Decimal digits of `n`, most significant first (empty for `n = 0`);
`fuel` bounds the recursion depth. -/
def natDigitChars : Nat → Nat → List Char
  | 0, _ => []
  | fuel + 1, n => if n = 0 then [] else natDigitChars fuel (n / 10) ++ [digitChar (n % 10)]

/-- Decimal rendering of a natural number. -/
def printNat (n : Nat) : List Char := if n = 0 then ['0'] else natDigitChars (n + 1) n

/-- Decimal rendering of an integer. -/
def printInt : Int → List Char
  | .ofNat n => printNat n
  | .negSucc m => '-' :: printNat (m + 1)

/-- Model of Python `str(i)` for integers. -/
def int_to_str (i : Int) : String := String.mk (printInt i)

/-! ## BatchOperation.register_job_definition prep parameters
(constructs_/sfn/states/batch.py)

The prep `Pass` state's parameters are
`convert_key_case(request, pascalcase)` where `request` is the
`RegisterJobDefinitionRequest` dict assembled in the method body. The
helpers `pascalcase`, `convert_key_case`, `to_key_value_pairs`,
`to_resource_requirements` and `build_retry_strategy` are external
collaborators (aibs-informatics-core / aibs-informatics-aws-utils); they
are embedded here with the behaviour pinned by this repository's own test
`test__register_job_definition__with_literals`
(test/.../constructs_/sfn/states/test_batch.py).
-/

/-- Model of `pascalcase` (aibs-informatics-core strtools) on the
camelCase keys used by the request dict: upper-case the first letter. -/
def pascalcase (s : String) : String :=
  match s.data with
  | [] => s
  | c :: rest => String.mk (c.toUpper :: rest)

mutual
/-- Model of `convert_key_case(data, pascalcase)` (aibs-informatics-core
dicttools): recursively rename every dict key, descending through dicts
and lists. -/
def convert_key_case : Json → Json
  | .null => .null
  | .bool b => .bool b
  | .num n => .num n
  | .str s => .str s
  | .arr xs => .arr (convert_key_case_list xs)
  | .obj fs => .obj (convert_key_case_fields fs)
/-- List branch of `convert_key_case`. -/
def convert_key_case_list : List Json → List Json
  | [] => []
  | x :: xs => convert_key_case x :: convert_key_case_list xs
/-- Dict branch of `convert_key_case`. -/
def convert_key_case_fields : List (String × Json) → List (String × Json)
  | [] => []
  | (k, v) :: fs => (pascalcase k, convert_key_case v) :: convert_key_case_fields fs
end

/-- Model of `to_key_value_pairs` (aibs-informatics-aws-utils batch): a
mapping becomes a list of name/value records. -/
def to_key_value_pairs (env : List (String × String)) : Json :=
  Json.arr (env.map fun kv => Json.obj [("name", Json.str kv.1), ("value", Json.str kv.2)])

/-- A Python `Union[int, str]` argument. -/
inductive IntOrStr where
  | int (n : Int)
  | str (s : String)

/-- The string value a resource requirement renders to (`str(int)` for
integers, the string itself for reference paths). -/
def resource_value : IntOrStr → String
  | .int n => int_to_str n
  | .str s => s

/-- One optional entry of the resource requirement list. -/
def resource_requirement_entries (t : String) : Option IntOrStr → List Json
  | none => []
  | some x => [Json.obj [("type", Json.str t), ("value", Json.str (resource_value x))]]

/-- Model of `to_resource_requirements(gpu, memory, vcpus)`
(aibs-informatics-aws-utils batch): GPU, MEMORY, VCPU entries in that
order, omitting unspecified values, with stringified amounts — exactly the
shape asserted by the repository's test. -/
def to_resource_requirements (gpu memory vcpus : Option IntOrStr) : Json :=
  Json.arr (resource_requirement_entries "GPU" gpu
    ++ resource_requirement_entries "MEMORY" memory
    ++ resource_requirement_entries "VCPU" vcpus)

/-- Model of
`build_retry_strategy(include_default_evaluate_on_exit_configs=True)`
(aibs-informatics-aws-utils batch), pinned by the repository's test
constants `DEFAULT_EVALUATE_ON_EXIT`. -/
def build_retry_strategy : Json :=
  Json.obj [("attempts", Json.num 5),
    ("evaluateOnExit", Json.arr
      [Json.obj [("action", Json.str "RETRY"),
        ("onStatusReason", Json.str "Task failed to start"),
        ("onReason", Json.str "DockerTimeoutError*")],
       Json.obj [("action", Json.str "RETRY"),
        ("onStatusReason", Json.str "Host EC2*")],
       Json.obj [("action", Json.str "EXIT"),
        ("onStatusReason", Json.str "*")]])]

/-- The `RegisterJobDefinition Prep` state parameters built by
`BatchOperation.register_job_definition` (constructs_/sfn/states/batch.py).
The method body reassigns the local
`job_definition_name = f"States.format('{...}', $$.State.Name, job_definition_name, $$.Execution.Name)"`;
since the f-string puts no braces around `job_definition_name`, the
argument is ignored and the literal text `job_definition_name` lands in
the produced string — mirrored faithfully by `jdn` below. -/
def register_job_definition_prep (command : Json) (image : String)
    (_job_definition_name : String) (environment : Option (List (String × String)))
    (memory vcpus gpu : Option IntOrStr)
    (mount_points volumes : Option Json) : Json :=
  let jdn :=
    "States.format(\x27\x7b\x7d-\x7b\x7d-\x7b\x7d\x27, $$.State.Name, job_definition_name, $$.Execution.Name)"
  let environment_pairs := to_key_value_pairs (environment.getD [])
  let request := Json.obj
    [("jobDefinitionName", Json.str jdn),
     ("type", Json.str "container"),
     ("containerProperties", Json.obj
       [("image", Json.str image),
        ("command", command),
        ("environment", environment_pairs),
        ("resourceRequirements", to_resource_requirements gpu memory vcpus),
        ("mountPoints", mount_points.getD Json.null),
        ("volumes", volumes.getD Json.null)]),
     ("retryStrategy", build_retry_strategy)]
  convert_key_case request

/-! ## Payload serialization round trip
(constructs_/sfn/states/s3.py)

`put_payload` stores the payload object at `(bucket, key)`; the engine
serializes the JSON node passed as the put-object `Body`. `get_payload`
is `get_object` (whose `ResultSelector` exposes the fetched `Body` text)
followed by a `Pass` state whose parameter is
`sfn.JsonPath.string_to_json("$.Body")` with `output_path` selecting the
parsed payload. The engine's serializer (`printJson`) and its
`States.StringToJson` intrinsic (`states_string_to_json`) are modelled as
an executable JSON renderer and parser over the `Json` trees; the parser
carries explicit fuel so that it is structurally recursive.
-/

/-- JSON escaping of one character (quote and backslash). -/
def escapeChar (c : Char) : List Char :=
  if c = '\"' || c = '\\' then ['\\', c] else [c]

/-- JSON escaping of a character sequence. -/
def escapeChars : List Char → List Char
  | [] => []
  | c :: rest => escapeChar c ++ escapeChars rest

/-- A rendered JSON string literal (quotes plus escaped content). -/
def printStr (s : List Char) : List Char := '\"' :: (escapeChars s ++ ['\"'])

mutual
/-- Render a `Json` value to text (the engine's serialization of a JSON
node, e.g. of the put-object `Body`). -/
def printJson : Json → List Char
  | .null => "null".data
  | .bool true => "true".data
  | .bool false => "false".data
  | .num i => printInt i
  | .str s => printStr s.data
  | .arr xs => '[' :: (printArrItems xs ++ [']'])
  | .obj fs => '\x7b' :: (printObjItems fs ++ ['\x7d'])
/-- Comma-separated rendering of array elements. -/
def printArrItems : List Json → List Char
  | [] => []
  | [x] => printJson x
  | x :: xs => printJson x ++ ',' :: printArrItems xs
/-- Comma-separated rendering of object members. -/
def printObjItems : List (String × Json) → List Char
  | [] => []
  | [(k, v)] => printStr k.data ++ ':' :: printJson v
  | (k, v) :: fs => printStr k.data ++ ':' :: printJson v ++ ',' :: printObjItems fs
end

/-- The remainder after a rendered number may not begin with a digit
(otherwise the greedy digit scan would continue into it). -/
def restOkForNum : List Char → Bool
  | [] => true
  | c :: _ => !c.isDigit

/-- Value of a most-significant-first digit run. -/
def digitRunVal (ds : List Char) : Nat :=
  ds.foldl (fun acc c => acc * 10 + toDigit c) 0

/-- Parse a nonempty digit run greedily. -/
def parseNatPart (l : List Char) : Option (Nat × List Char) :=
  let ds := l.takeWhile Char.isDigit
  if ds.isEmpty then none
  else some (digitRunVal ds, l.dropWhile Char.isDigit)

/-- Parse an optionally negated integer. -/
def parseIntPart : List Char → Option (Int × List Char)
  | [] => none
  | c :: r =>
    if c = '-' then (parseNatPart r).map (fun p => (-(p.1 : Int), p.2))
    else (parseNatPart (c :: r)).map (fun p => ((p.1 : Int), p.2))

/-- Parse a JSON string body after the opening quote, undoing the
escaping, up to the closing quote. -/
def parseStrBody : List Char → Option (List Char × List Char)
  | [] => none
  | c :: rest =>
    if c = '\"' then some ([], rest)
    else if c = '\\' then
      match rest with
      | [] => none
      | c2 :: rest2 => (parseStrBody rest2).map (fun p => (c2 :: p.1, p.2))
    else (parseStrBody rest).map (fun p => (c :: p.1, p.2))

mutual
/-- Fuel-indexed JSON value parser (model of `States.StringToJson`);
returns the parsed value and the unconsumed remainder. -/
def parseVal : Nat → List Char → Option (Json × List Char)
  | 0, _ => none
  | fuel + 1, l =>
    match l with
    | [] => none
    | c :: r =>
      if c = 'n' then
        if r.take 3 = ['u', 'l', 'l'] then some (.null, r.drop 3) else none
      else if c = 't' then
        if r.take 3 = ['r', 'u', 'e'] then some (.bool true, r.drop 3) else none
      else if c = 'f' then
        if r.take 4 = ['a', 'l', 's', 'e'] then some (.bool false, r.drop 4) else none
      else if c = '\"' then
        (parseStrBody r).map (fun p => (.str (String.mk p.1), p.2))
      else if c = '[' then
        if r.head? = some ']' then some (.arr [], r.tail)
        else (parseElems fuel r).map (fun p => (.arr p.1, p.2))
      else if c = '\x7b' then
        if r.head? = some '\x7d' then some (.obj [], r.tail)
        else (parseFields fuel r).map (fun p => (.obj p.1, p.2))
      else (parseIntPart (c :: r)).map (fun p => (.num p.1, p.2))
/-- Parse one or more comma-separated array elements and the closing
bracket. -/
def parseElems : Nat → List Char → Option (List Json × List Char)
  | 0, _ => none
  | fuel + 1, l =>
    (parseVal fuel l).bind (fun p =>
      match p.2 with
      | ',' :: r2 => (parseElems fuel r2).map (fun q => (p.1 :: q.1, q.2))
      | ']' :: r2 => some ([p.1], r2)
      | _ => none)
/-- Parse one or more comma-separated object members and the closing
brace. -/
def parseFields : Nat → List Char → Option (List (String × Json) × List Char)
  | 0, _ => none
  | fuel + 1, l =>
    match l with
    | '\"' :: r0 =>
      (parseStrBody r0).bind (fun pk =>
        match pk.2 with
        | ':' :: r2 =>
          (parseVal fuel r2).bind (fun pv =>
            match pv.2 with
            | ',' :: r4 => (parseFields fuel r4).map
                (fun q => ((String.mk pk.1, pv.1) :: q.1, q.2))
            | '\x7d' :: r4 => some ([(String.mk pk.1, pv.1)], r4)
            | _ => none)
        | _ => none)
    | _ => none
end

mutual
/-- Node count of a JSON value; a lower bound for the parser fuel. -/
def sizeV : Json → Nat
  | .null => 1
  | .bool _ => 1
  | .num _ => 1
  | .str _ => 1
  | .arr xs => 1 + sizeL xs
  | .obj fs => 1 + sizeF fs
/-- Node count of an element list. -/
def sizeL : List Json → Nat
  | [] => 0
  | x :: xs => 1 + sizeV x + sizeL xs
/-- Node count of a member list. -/
def sizeF : List (String × Json) → Nat
  | [] => 0
  | (_, v) :: fs => 1 + sizeV v + sizeF fs
end

/-- The stored body text of a payload: the engine's serialization of the
JSON node handed to the put-object call. -/
def serialize (v : Json) : String := String.mk (printJson v)

/-- Model of the `States.StringToJson` intrinsic applied by the
`get_payload` post `Pass` state: parse the fetched body completely. -/
def states_string_to_json (s : String) : Option Json :=
  match parseVal (s.data.length + 1) s.data with
  | some (v, []) => some v
  | _ => none

/-- The S3 object store: bucket name and key to stored body text. -/
def S3Store := String → String → Option String

/-- Effect of the `put_payload(bucket, payload)` chain on the store: the
serialized payload is written at `(bucket, key)`
(`S3Operation.put_payload` / `put_object`, constructs_/sfn/states/s3.py). -/
def put_payload_store (store : S3Store) (bucket key : String) (payload : Json) : S3Store :=
  fun b k =>
    if b = bucket then (if k = key then some (serialize payload) else store b k)
    else store b k

/-- Context value produced by the `get_payload(bucket, key)` chain: the
object body fetched by `get_object` (its `ResultSelector` exposes `Body`),
parsed by the post state's `States.StringToJson` and selected via its
`output_path` (`S3Operation.get_payload`, constructs_/sfn/states/s3.py). -/
def get_payload_result (store : S3Store) (bucket key : String) : Option Json :=
  (store bucket key).bind (fun body => states_string_to_json body)

/- ===================== THEOREMS ===================== -/

theorem isSepChar_iff (c : Char) : isSepChar c = true ↔ c = '$' ∨ c = '.' := by
  simp [isSepChar]

theorem isSepChar_of_dot : isSepChar '.' = true := by decide

theorem ne_dollar_of_not_sep {c : Char} (h : ¬isSepChar c = true) : c ≠ '$' := by
  intro hc; subst hc; simp [isSepChar] at h

theorem headNotDot_iff (l : List Char) :
    headNotDot l ↔ ∀ c, l.head? = some c → isDotChar c = false := by
  cases l <;> simp [headNotDot]

theorem collapseSeps_head (rest : List Char) : ∀ c : Char,
    (collapseSeps (c :: rest)).head? = some (if isSepChar c then '.' else c) := by
  induction rest with
  | nil => intro c; by_cases h : isSepChar c <;> simp [collapseSeps, h]
  | cons c2 r ih =>
    intro c
    by_cases h : (isSepChar c && isSepChar c2) = true
    · rw [Bool.and_eq_true] at h
      have hc : collapseSeps (c :: c2 :: r) = collapseSeps (c2 :: r) := by
        simp [collapseSeps, h.1, h.2]
      rw [hc, ih c2]
      simp [h.1, h.2]
    · simp [collapseSeps, h]

theorem collapseSeps_noDollar (l : List Char) : noDollar (collapseSeps l) := by
  induction l with
  | nil => intro c hc; simp [collapseSeps] at hc
  | cons c rest ih =>
    cases rest with
    | nil =>
      intro x hx
      by_cases h : isSepChar c = true
      · simp [collapseSeps, h] at hx; subst hx; decide
      · simp [collapseSeps, h] at hx; subst hx; exact ne_dollar_of_not_sep h
    | cons c2 r =>
      by_cases h : (isSepChar c && isSepChar c2) = true
      · simpa [collapseSeps, h] using ih
      · intro x hx
        simp only [collapseSeps, if_neg h, List.mem_cons] at hx
        rcases hx with hx | hx
        · subst hx
          by_cases hc : isSepChar c = true
          · simp [hc]
          · simp [hc]; exact ne_dollar_of_not_sep hc
        · exact ih x hx

theorem noAdjSeps_cons (a : Char) (m : List Char) (hm : noAdjSeps m)
    (hh : ∀ b, m.head? = some b → ¬(isSepChar a = true ∧ isSepChar b = true)) :
    noAdjSeps (a :: m) := by
  cases m with
  | nil => trivial
  | cons b r => exact ⟨hh b rfl, hm⟩

theorem isSepChar_ite (c : Char) :
    isSepChar (if isSepChar c then '.' else c) = isSepChar c := by
  by_cases h : isSepChar c <;> simp [h, isSepChar_of_dot]

theorem collapseSeps_noAdjSeps (l : List Char) : noAdjSeps (collapseSeps l) := by
  induction l with
  | nil => trivial
  | cons c rest ih =>
    cases rest with
    | nil =>
      by_cases h : isSepChar c = true <;> simp [collapseSeps, h] <;> trivial
    | cons c2 r =>
      by_cases h : (isSepChar c && isSepChar c2) = true
      · simpa [collapseSeps, h] using ih
      · simp only [collapseSeps, if_neg h]
        refine noAdjSeps_cons _ _ ih ?_
        intro b hb
        rw [collapseSeps_head r c2] at hb
        injection hb with hb
        subst hb
        rw [isSepChar_ite, isSepChar_ite]
        intro hcontra
        exact h (by rw [hcontra.1, hcontra.2]; rfl)

theorem noAdjSeps_tail {c : Char} {m : List Char} (h : noAdjSeps (c :: m)) :
    noAdjSeps m := by
  cases m with
  | nil => trivial
  | cons b r => exact h.2

theorem collapseSeps_fixed (l : List Char) (hd : noDollar l) (ha : noAdjSeps l) :
    collapseSeps l = l := by
  induction l with
  | nil => rfl
  | cons c rest ih =>
    have hc : isSepChar c = true → c = '.' := by
      intro hs
      rcases (isSepChar_iff c).mp hs with h | h
      · exact absurd h (hd c (by simp))
      · exact h
    cases rest with
    | nil =>
      by_cases h : isSepChar c = true
      · simp [collapseSeps, h, hc h]
      · simp [collapseSeps, h]
    | cons c2 r =>
      have hna : ¬(isSepChar c = true ∧ isSepChar c2 = true) := ha.1
      have h : (isSepChar c && isSepChar c2) = false := by
        cases h1 : isSepChar c
        · simp
        · cases h2 : isSepChar c2
          · simp
          · exact absurd ⟨h1, h2⟩ hna
      have htail : collapseSeps (c2 :: r) = c2 :: r :=
        ih (fun x hx => hd x (by simp [hx])) ha.2
      simp only [collapseSeps, h, Bool.false_eq_true, if_false, htail]
      by_cases hs : isSepChar c = true
      · simp [hs, hc hs]
      · simp [hs]

theorem dropWhile_headNotDot (l : List Char) : headNotDot (l.dropWhile isDotChar) := by
  induction l with
  | nil => trivial
  | cons c rest ih =>
    cases h : isDotChar c with
    | true =>
      rw [List.dropWhile_cons, h, if_pos rfl]
      exact ih
    | false =>
      rw [List.dropWhile_cons, h]
      simp only [Bool.false_eq_true, if_false]
      exact h

theorem dropWhile_of_headNotDot (l : List Char) (h : headNotDot l) :
    l.dropWhile isDotChar = l := by
  cases l with
  | nil => rfl
  | cons c rest =>
    have hc : isDotChar c = false := h
    simp [List.dropWhile_cons, hc]

theorem dropEndDots_head? (l : List Char) :
    dropEndDots l = [] ∨ (dropEndDots l).head? = l.head? := by
  cases l with
  | nil => exact Or.inl rfl
  | cons c rest =>
    rw [dropEndDots]
    cases h : dropEndDots rest with
    | nil =>
      by_cases hc : isDotChar c = true
      · simp [hc]
      · simp [hc]
    | cons d r => simp

theorem dropEndDots_lastNotDot (l : List Char) : lastNotDot (dropEndDots l) := by
  induction l with
  | nil => trivial
  | cons c rest ih =>
    rw [dropEndDots]
    cases h : dropEndDots rest with
    | nil =>
      by_cases hc : isDotChar c = true
      · simp [hc]; trivial
      · simp only [hc, if_false, Bool.false_eq_true]
        simpa [lastNotDot] using hc
    | cons d r =>
      show lastNotDot (c :: d :: r)
      have : lastNotDot (d :: r) := h ▸ ih
      exact this

theorem dropEndDots_of_lastNotDot (l : List Char) (h : lastNotDot l) :
    dropEndDots l = l := by
  induction l with
  | nil => rfl
  | cons c rest ih =>
    cases rest with
    | nil =>
      have hc : isDotChar c = false := h
      simp [dropEndDots, hc]
    | cons c2 r =>
      have htail : dropEndDots (c2 :: r) = c2 :: r := ih h
      rw [dropEndDots, htail]

theorem dropEndDots_subset (l : List Char) : ∀ c ∈ dropEndDots l, c ∈ l := by
  induction l with
  | nil => intro c hc; simp [dropEndDots] at hc
  | cons a rest ih =>
    intro c hc
    rw [dropEndDots] at hc
    cases h : dropEndDots rest with
    | nil =>
      rw [h] at hc
      by_cases ha : isDotChar a = true
      · simp [ha] at hc
      · simp [ha] at hc; simp [hc]
    | cons d r =>
      rw [h] at hc
      rcases List.mem_cons.mp hc with hc | hc
      · simp [hc]
      · have hmem : c ∈ dropEndDots rest := by
          rw [h]; exact hc
        exact List.mem_cons_of_mem _ (ih c hmem)

theorem noAdjSeps_dropWhile (l : List Char) (h : noAdjSeps l) :
    noAdjSeps (l.dropWhile isDotChar) := by
  induction l with
  | nil => trivial
  | cons c rest ih =>
    by_cases hc : isDotChar c = true
    · simpa [List.dropWhile_cons, hc] using ih (noAdjSeps_tail h)
    · simpa [List.dropWhile_cons, hc] using h

theorem noAdjSeps_dropEndDots (l : List Char) (h : noAdjSeps l) :
    noAdjSeps (dropEndDots l) := by
  induction l with
  | nil => trivial
  | cons c rest ih =>
    rw [dropEndDots]
    cases hdrop : dropEndDots rest with
    | nil =>
      by_cases hc : isDotChar c = true
      · simp [hc]; trivial
      · simp [hc]; trivial
    | cons d r =>
      refine noAdjSeps_cons _ _ (hdrop ▸ ih (noAdjSeps_tail h)) ?_
      intro b hb
      injection hb with hb
      subst hb
      rcases dropEndDots_head? rest with hnil | hsame
      · rw [hnil] at hdrop; exact absurd hdrop (by simp)
      · rw [hdrop] at hsame
        cases rest with
        | nil => simp [dropEndDots] at hdrop
        | cons e rest' =>
          simp only [List.head?] at hsame
          injection hsame with hsame
          subst hsame
          exact h.1

theorem headNotDot_dropEndDots (l : List Char) (h : headNotDot l) :
    headNotDot (dropEndDots l) := by
  rcases dropEndDots_head? l with hnil | hsame
  · rw [hnil]; trivial
  · rw [headNotDot_iff] at h ⊢
    intro c hc
    exact h c (hsame ▸ hc)

theorem noDollar_sanitizeChars (l : List Char) : noDollar (sanitizeChars l) := by
  intro c hc
  have h1 : c ∈ (collapseSeps l).dropWhile isDotChar := dropEndDots_subset _ c hc
  have h2 : c ∈ collapseSeps l := (List.dropWhile_suffix _).subset h1
  exact collapseSeps_noDollar l c h2

theorem noAdjSeps_sanitizeChars (l : List Char) : noAdjSeps (sanitizeChars l) :=
  noAdjSeps_dropEndDots _ (noAdjSeps_dropWhile _ (collapseSeps_noAdjSeps l))

theorem headNotDot_sanitizeChars (l : List Char) : headNotDot (sanitizeChars l) :=
  headNotDot_dropEndDots _ (dropWhile_headNotDot _)

theorem lastNotDot_sanitizeChars (l : List Char) : lastNotDot (sanitizeChars l) :=
  dropEndDots_lastNotDot _

theorem sanitizeChars_idem (l : List Char) :
    sanitizeChars (sanitizeChars l) = sanitizeChars l := by
  have h1 : collapseSeps (sanitizeChars l) = sanitizeChars l :=
    collapseSeps_fixed _ (noDollar_sanitizeChars l) (noAdjSeps_sanitizeChars l)
  have h2 : (sanitizeChars l).dropWhile isDotChar = sanitizeChars l :=
    dropWhile_of_headNotDot _ (headNotDot_sanitizeChars l)
  have h3 : dropEndDots (sanitizeChars l) = sanitizeChars l :=
    dropEndDots_of_lastNotDot _ (lastNotDot_sanitizeChars l)
  rw [sanitizeChars, h1, h2, h3]

/-- C9: `JsonReferencePath.sanitize` is idempotent, and it collapses
separator runs and trims edges: `sanitize "a..b" = sanitize ".a.b." = "a.b"`. -/
theorem sanitize_idempotent_and_collapses :
    (∀ s : String, sanitize (sanitize s) = sanitize s)
    ∧ sanitize "a..b" = "a.b" ∧ sanitize ".a.b." = "a.b" := by
  refine ⟨fun s => ?_, by decide, by decide⟩
  show String.mk (sanitizeChars (sanitizeChars s.data)) = String.mk (sanitizeChars s.data)
  rw [sanitizeChars_idem]

/-- C8 counterexample: on the empty (normalized) path — which the code
itself constructs via `JsonReferencePath.empty()` — `as_key` returns the
bare root marker `"$"`, which does not end with the key-marker suffix
`".$"`, contrary to the claim that `as_key` always ends with it. -/
theorem as_key_empty_not_suffixed :
    as_key (sanitize "") = "$" ∧ ¬(['.', '$'] <:+ (as_key (sanitize "")).data) := by
  constructor
  · rfl
  · decide

/-- C8 amended: for every normalized path `p` (image of `sanitize`),
`as_reference p` starts with the root marker `$`; `as_key p` ends with the
key-marker suffix `.$` provided `p` is non-empty (for the empty path both
projections are the bare root marker `$`); and `as_reference "" = "$"`. -/
theorem as_reference_as_key_markers (s : String) :
    ['$'] <+: (as_reference (sanitize s)).data
    ∧ (sanitize s ≠ "" → ['.', '$'] <:+ (as_key (sanitize s)).data)
    ∧ as_reference "" = "$" := by
  refine ⟨?_, ?_, rfl⟩
  · by_cases h : sanitize s = ""
    · rw [h]; decide
    · rw [as_reference, if_neg h]
      refine ⟨'.' :: (sanitize s).data, ?_⟩
      rw [String.data_append]
      rfl
  · intro h
    rw [as_key, if_neg h]
    exact ⟨(sanitize s).data, by rw [String.data_append]⟩

/-- C8 witness: theorem applied at the concrete non-empty path `"a"`. -/
theorem as_reference_as_key_markers_witness :
    ['.', '$'] <:+ (as_key (sanitize "a")).data
    ∧ ['$'] <+: (as_reference (sanitize "a")).data :=
  ⟨(as_reference_as_key_markers "a").2.1 (by decide),
   (as_reference_as_key_markers "a").1⟩

mutual
theorem convert_literal : ∀ v : Json, allStringsLiteral v = true →
    convert_reference_paths v = embedJson v
  | .null, _ => rfl
  | .bool _, _ => rfl
  | .num _, _ => rfl
  | .str s, h => by
    have h' : startsWithL "$" s = false ∧ startsWithL "States." s = false := by
      simpa [allStringsLiteral, isLiteralString, Bool.and_eq_true] using h
    simp [convert_reference_paths, embedJson, h'.1, h'.2]
  | .arr xs, h => by
    have hx := convert_literal_list xs (by simpa [allStringsLiteral] using h)
    simp [convert_reference_paths, embedJson, hx]
  | .obj fs, h => by
    have hf := convert_literal_fields fs (by simpa [allStringsLiteral] using h)
    simp [convert_reference_paths, embedJson, hf]
theorem convert_literal_list : ∀ xs : List Json, allStringsLiteralList xs = true →
    convert_reference_paths_list xs = embedJsonList xs
  | [], _ => rfl
  | x :: xs, h => by
    simp only [allStringsLiteralList, Bool.and_eq_true] at h
    simp [convert_reference_paths_list, embedJsonList, convert_literal x h.1,
      convert_literal_list xs h.2]
theorem convert_literal_fields : ∀ fs : List (String × Json),
    allStringsLiteralFields fs = true →
    convert_reference_paths_fields fs = embedJsonFields fs
  | [], _ => rfl
  | (k, v) :: fs, h => by
    simp only [allStringsLiteralFields, Bool.and_eq_true] at h
    simp [convert_reference_paths_fields, embedJsonFields, convert_literal v h.1,
      convert_literal_fields fs h.2]
end

/-- C3 counterexample: the string `"$\x7bToken1\x7d"` starts with the root
marker `$`, yet `convert_reference_paths` returns it unchanged (untagged),
because of the explicit `${Token` carve-out in the code; so "every string
that starts with the root marker is tagged" is false as stated. -/
theorem convert_reference_paths_token_counterexample :
    startsWithL "$" "$\x7bToken1\x7d" = true
    ∧ convert_reference_paths (Json.str "$\x7bToken1\x7d") = CJson.str "$\x7bToken1\x7d"
    ∧ isRefTagged (convert_reference_paths (Json.str "$\x7bToken1\x7d")) = false :=
  ⟨rfl, rfl, rfl⟩

/-- C3 amended: conversion is conservative — every tree all of whose string
scalars start neither with `$` nor with `States.` passes through unchanged
(recursively) — and complete on genuine references: every string starting
with `$` that does not start with the CDK token marker `${Token` is tagged
as a dereference. -/
theorem convert_reference_paths_conservative :
    (∀ t : Json, allStringsLiteral t = true →
      convert_reference_paths t = embedJson t)
    ∧ (∀ s : String, startsWithL "$" s = true → startsWithL "$\x7bToken" s = false →
      convert_reference_paths (Json.str s) = CJson.ref s) := by
  constructor
  · exact convert_literal
  · intro s h1 h2
    simp [convert_reference_paths, h1, h2]

/-- C3 witness: the amended theorem applied to a concrete literal tree and
a concrete reference string. -/
theorem convert_reference_paths_conservative_witness :
    convert_reference_paths (Json.obj [("k", Json.str "literal")])
      = embedJson (Json.obj [("k", Json.str "literal")])
    ∧ convert_reference_paths (Json.str "$.foo.bar") = CJson.ref "$.foo.bar" :=
  ⟨convert_reference_paths_conservative.1 _ rfl,
   convert_reference_paths_conservative.2 "$.foo.bar" rfl rfl⟩

theorem sep_split_unique (c : Char) :
    ∀ (a1 a2 b1 b2 : List Char), c ∉ b1 → c ∉ b2 →
      a1 ++ c :: b1 = a2 ++ c :: b2 → a1 = a2 ∧ b1 = b2 := by
  intro a1
  induction a1 with
  | nil =>
    intro a2 b1 b2 h1 h2 heq
    cases a2 with
    | nil =>
      simp only [List.nil_append] at heq
      injection heq with _ h
      exact ⟨rfl, h⟩
    | cons d a2' =>
      simp only [List.nil_append, List.cons_append] at heq
      injection heq with hc h
      subst hc
      exact absurd (h ▸ List.mem_append_right a2' (List.mem_cons_self c b2)) h1
  | cons d a1' ih =>
    intro a2 b1 b2 h1 h2 heq
    cases a2 with
    | nil =>
      simp only [List.nil_append, List.cons_append] at heq
      injection heq with hc h
      subst hc
      exact absurd (h.symm ▸ List.mem_append_right a1' (List.mem_cons_self d b1)) h2
    | cons e a2' =>
      simp only [List.cons_append] at heq
      injection heq with hde h
      obtain ⟨ha, hb⟩ := ih a2' b1 b2 h1 h2 h
      exact ⟨by rw [hde, ha], hb⟩

/-- C7: two `put_payload` invocations without an explicit key, under
different execution identifiers, generate different storage keys (the
generated UUID component never contains a slash); and each generated key
starts with its own execution identifier followed by the separator. -/
theorem generated_payload_key_spec :
    (∀ e1 u1 e2 u2 : String, '/' ∉ u1.data → '/' ∉ u2.data → e1 ≠ e2 →
      generated_payload_key e1 u1 ≠ generated_payload_key e2 u2)
    ∧ (∀ e u : String, (e ++ "/").data <+: (generated_payload_key e u).data) := by
  constructor
  · intro e1 u1 e2 u2 h1 h2 hne heq
    apply hne
    have hdata : e1.data ++ '/' :: u1.data = e2.data ++ '/' :: u2.data := by
      have hd := congrArg String.data heq
      simpa [generated_payload_key, String.data_append] using hd
    have he := (sep_split_unique '/' e1.data e2.data u1.data u2.data h1 h2 hdata).1
    exact congrArg String.mk he
  · intro e u
    refine ⟨u.data, ?_⟩
    simp [generated_payload_key, String.data_append]

/-- C7 witness: theorem applied at two concrete execution identifiers and
a concrete UUID component. -/
theorem generated_payload_key_spec_witness :
    generated_payload_key "exec1" "ab12" ≠ generated_payload_key "exec2" "ab12"
    ∧ ("exec1" ++ "/").data <+: (generated_payload_key "exec1" "ab12").data :=
  ⟨generated_payload_key_spec.1 "exec1" "ab12" "exec2" "ab12"
      (by decide) (by decide) (by decide),
   generated_payload_key_spec.2 "exec1" "ab12"⟩

theorem runSubmitJob_terminal (s : SJState) (bs : List Bool)
    (h : isTerminalState s = true) : runSubmitJob s bs = some [s] := by
  cases bs <;> simp [runSubmitJob, h]

/-- C1: in the `SubmitJobFragment` graph, every complete execution passes
through a deregister step (main-chain or catch-chain) exactly once if the
job definition was registered (the execution reached the submit state),
and zero times otherwise; and a failure at submit is routed through the
catch deregister chain and then the Fail state. -/
theorem submit_job_fragment_cleanup :
    (∀ (outcomes : List Bool) (t : List SJState),
      runSubmitJob SJState.register outcomes = some t →
      countDeregisterStates t = if SJState.submit ∈ t then 1 else 0)
    ∧ runSubmitJob SJState.register [true, false, true] =
        some [SJState.register, SJState.submit, SJState.deregisterCatch,
          SJState.failState] := by
  constructor
  · intro outcomes t h
    rcases outcomes with _ | ⟨b1, rest1⟩
    · simp [runSubmitJob, isTerminalState] at h
    · cases b1
      · simp [runSubmitJob, isTerminalState, nextState,
          runSubmitJob_terminal SJState.errState rest1 rfl] at h
        subst h
        decide
      · rcases rest1 with _ | ⟨b2, rest2⟩
        · simp [runSubmitJob, isTerminalState, nextState] at h
        · cases b2
          · rcases rest2 with _ | ⟨b3, rest3⟩
            · simp [runSubmitJob, isTerminalState, nextState] at h
            · cases b3 <;>
                · simp [runSubmitJob, isTerminalState, nextState,
                    runSubmitJob_terminal SJState.errState rest3 rfl,
                    runSubmitJob_terminal SJState.failState rest3 rfl] at h
                  subst h
                  decide
          · rcases rest2 with _ | ⟨b3, rest3⟩
            · simp [runSubmitJob, isTerminalState, nextState] at h
            · cases b3 <;>
                · simp [runSubmitJob, isTerminalState, nextState,
                    runSubmitJob_terminal SJState.errState rest3 rfl,
                    runSubmitJob_terminal SJState.doneState rest3 rfl] at h
                  subst h
                  decide
  · rfl

/-- C1 witness: the cleanup count property instantiated on the concrete
submit-failure execution, whose completeness is discharged by the
theorem's own second conjunct. -/
theorem submit_job_fragment_cleanup_witness :
    countDeregisterStates [SJState.register, SJState.submit,
        SJState.deregisterCatch, SJState.failState] =
      if SJState.submit ∈ [SJState.register, SJState.submit,
        SJState.deregisterCatch, SJState.failState] then 1 else 0 :=
  submit_job_fragment_cleanup.1 [true, false, true] _
    submit_job_fragment_cleanup.2

/-- C5: constructing `BatchInvokedLambdaFunction` with a truthy
`mount_point_configs` and a truthy `mount_points` or `volumes` yields the
configuration `ValueError` from the validation block, which in the source
precedes the creation of every graph node of the fragment's chain; no node
list is ever produced. -/
theorem batch_invoked_lambda_mount_exclusivity :
    ∀ (mpc : Option (List MountPointConfiguration)) (mp vol : Option (List Json)),
      truthyOptList mpc = true →
      (truthyOptList mp = true ∨ truthyOptList vol = true) →
      batch_invoked_lambda_function_build mpc mp vol =
        Except.error "Cannot specify both mount_point_configs and mount_points" := by
  intro mpc mp vol h1 h2
  rcases h2 with h2 | h2 <;> simp [batch_invoked_lambda_function_build, h1, h2]

/-- C5 witness: theorem applied at one concrete mount point configuration
plus one concrete raw mount point. -/
theorem batch_invoked_lambda_mount_exclusivity_witness :
    batch_invoked_lambda_function_build
        (some [⟨"/mnt/efs", "fs-1", "ap-1"⟩]) (some [Json.null]) none =
      Except.error "Cannot specify both mount_point_configs and mount_points" :=
  batch_invoked_lambda_mount_exclusivity _ _ _ rfl (Or.inl rfl)

/-- C10: `DemandExecutionFragment.__init__` constructs its graph exactly
when both the shared and the scratch mount point configurations are
supplied; with neither or only one of them it raises the `ValueError`
before creating any node, even though both parameters are typed
`Optional`. -/
theorem demand_execution_requires_both_configs :
    ∀ shared scratch : Option MountPointConfiguration,
      (∃ nodes, demand_execution_build shared scratch = Except.ok nodes) ↔
        (shared.isSome = true ∧ scratch.isSome = true) := by
  intro shared scratch
  cases shared <;> cases scratch <;> simp [demand_execution_build]

/-- C4: the setup-parallel step of `DemandExecutionFragment`, with branch
index 0 producing `X` and branch index 1 producing the list of sync
results, collapses — in either completion order — to the single object
whose `batch_args` key equals `X`. -/
theorem setup_parallel_collapse :
    ∀ (X : Json) (syncResults : List Json) (arrivals : List (Nat × Json)),
      (arrivals = [(0, X), (1, Json.arr syncResults)]
        ∨ arrivals = [(1, Json.arr syncResults), (0, X)]) →
      setup_steps_output arrivals = some (Json.obj [("batch_args", X)])
      ∧ (setup_steps_output arrivals).bind (fun j => json_field j "batch_args")
          = some X := by
  intro X syncs arrivals h
  rcases h with h | h <;> subst h <;>
    simp [setup_steps_output, parallel_positional_results, List.lookup,
      setup_steps_result_selector, json_field, lookupField]

/-- C4 witness: theorem applied with the branches' completions arriving in
reverse branch order. -/
theorem setup_parallel_collapse_witness :
    setup_steps_output [(1, Json.arr []), (0, Json.str "args")] =
      some (Json.obj [("batch_args", Json.str "args")]) :=
  (setup_parallel_collapse (Json.str "args") [] _ (Or.inr rfl)).1

set_option maxRecDepth 4000 in
/-- C2: the prep state parameters at the claim's input
`command=["echo","hi"], image="img:1", job_definition_name="test-def",
memory=2048, vcpus=2`. `ContainerProperties.Image` and the MEMORY/VCPU
resource requirement entries come out as the claim states, but the
produced `JobDefinitionName` is the constant format string containing the
un-interpolated identifier text `job_definition_name`: the literal
`test-def` appears nowhere in it, because the source's f-string omits the
braces around the variable (the repository's own test expects
`States.Format` with the literal `'test-def'` and a uniqueness token). -/
theorem register_job_definition_prep_at_claim_input :
    (json_field (register_job_definition_prep
        (Json.arr [Json.str "echo", Json.str "hi"]) "img:1" "test-def" none
        (some (IntOrStr.int 2048)) (some (IntOrStr.int 2)) none none none)
        "ContainerProperties").bind (fun cp => json_field cp "Image")
      = some (Json.str "img:1")
    ∧ (json_field (register_job_definition_prep
        (Json.arr [Json.str "echo", Json.str "hi"]) "img:1" "test-def" none
        (some (IntOrStr.int 2048)) (some (IntOrStr.int 2)) none none none)
        "ContainerProperties").bind (fun cp => json_field cp "ResourceRequirements")
      = some (Json.arr
          [Json.obj [("Type", Json.str "MEMORY"), ("Value", Json.str "2048")],
           Json.obj [("Type", Json.str "VCPU"), ("Value", Json.str "2")]])
    ∧ json_field (register_job_definition_prep
        (Json.arr [Json.str "echo", Json.str "hi"]) "img:1" "test-def" none
        (some (IntOrStr.int 2048)) (some (IntOrStr.int 2)) none none none)
        "JobDefinitionName"
      = some (Json.str
          "States.format(\x27\x7b\x7d-\x7b\x7d-\x7b\x7d\x27, $$.State.Name, job_definition_name, $$.Execution.Name)")
    ∧ ¬("test-def".data <:+:
        "States.format(\x27\x7b\x7d-\x7b\x7d-\x7b\x7d\x27, $$.State.Name, job_definition_name, $$.Execution.Name)".data) :=
  ⟨rfl, rfl, rfl, by decide⟩

theorem digitChar_spec (d : Nat) (h : d < 10) :
    toDigit (digitChar d) = d ∧ (digitChar d).isDigit = true := by
  interval_cases d <;> exact ⟨by decide, by decide⟩

theorem isDigit_ne_special {c : Char} (h : c.isDigit = true) :
    c ≠ 'n' ∧ c ≠ 't' ∧ c ≠ 'f' ∧ c ≠ '\"' ∧ c ≠ '[' ∧ c ≠ '\x7b'
    ∧ c ≠ '-' ∧ c ≠ ']' ∧ c ≠ '\x7d' := by
  refine ⟨?_, ?_, ?_, ?_, ?_, ?_, ?_, ?_, ?_⟩ <;>
    (rintro rfl; exact absurd h (by decide))

theorem natDigitChars_digits (fuel : Nat) : ∀ n : Nat,
    ∀ c ∈ natDigitChars fuel n, c.isDigit = true := by
  induction fuel with
  | zero => intro n c hc; simp [natDigitChars] at hc
  | succ f ih =>
    intro n c hc
    by_cases h : n = 0
    · simp [natDigitChars, h] at hc
    · simp only [natDigitChars, if_neg h, List.mem_append,
        List.mem_singleton] at hc
      rcases hc with hc | hc
      · exact ih (n / 10) c hc
      · subst hc
        exact (digitChar_spec (n % 10) (Nat.mod_lt _ (by norm_num))).2

theorem foldl_digit_step (fuel : Nat) : ∀ n a : Nat, n < fuel →
    List.foldl (fun acc c => acc * 10 + toDigit c) a (natDigitChars fuel n)
      = a * 10 ^ (natDigitChars fuel n).length + n := by
  induction fuel with
  | zero => intro n a h; exact absurd h (Nat.not_lt_zero n)
  | succ f ih =>
    intro n a h
    by_cases h0 : n = 0
    · simp [natDigitChars, h0]
    · have hdiv : n / 10 < f := by
        have h1 : n / 10 < n := Nat.div_lt_self (Nat.pos_of_ne_zero h0) (by norm_num)
        omega
      simp only [natDigitChars, if_neg h0, List.foldl_append, List.foldl_cons,
        List.foldl_nil, List.length_append, List.length_singleton]
      rw [ih (n / 10) a hdiv,
        (digitChar_spec (n % 10) (Nat.mod_lt _ (by norm_num))).1, pow_succ]
      have hmod := Nat.div_add_mod n 10
      ring_nf
      omega

theorem digitRunVal_printNat (n : Nat) : digitRunVal (printNat n) = n := by
  by_cases h : n = 0
  · subst h; decide
  · rw [printNat, if_neg h, digitRunVal,
      foldl_digit_step (n + 1) n 0 (Nat.lt_succ_self n)]
    simp

theorem printNat_ne_nil (n : Nat) : printNat n ≠ [] := by
  by_cases h : n = 0
  · subst h; decide
  · rw [printNat, if_neg h, natDigitChars, if_neg h]
    simp

theorem printNat_digits (n : Nat) : ∀ c ∈ printNat n, c.isDigit = true := by
  by_cases h : n = 0
  · subst h
    intro c hc
    simp [printNat] at hc
    subst hc
    decide
  · rw [printNat, if_neg h]
    exact natDigitChars_digits (n + 1) n

theorem takeWhile_digits_append (A : List Char) (hA : ∀ c ∈ A, c.isDigit = true)
    (r : List Char) (hr : restOkForNum r = true) :
    (A ++ r).takeWhile Char.isDigit = A ∧ (A ++ r).dropWhile Char.isDigit = r := by
  induction A with
  | nil =>
    simp only [List.nil_append]
    cases r with
    | nil => exact ⟨rfl, rfl⟩
    | cons c t =>
      have hc : c.isDigit = false := by simpa [restOkForNum] using hr
      simp [List.takeWhile_cons, List.dropWhile_cons, hc]
  | cons c A' ih =>
    have hc : c.isDigit = true := hA c (by simp)
    have ht := ih (fun x hx => hA x (by simp [hx]))
    simp [List.takeWhile_cons, List.dropWhile_cons, hc, ht.1, ht.2]

theorem parseNatPart_printNat (n : Nat) (rest : List Char)
    (hr : restOkForNum rest = true) :
    parseNatPart (printNat n ++ rest) = some (n, rest) := by
  obtain ⟨ht, hd⟩ := takeWhile_digits_append (printNat n) (printNat_digits n) rest hr
  have hne : (printNat n).isEmpty = false := by
    cases hp : printNat n
    · exact absurd hp (printNat_ne_nil n)
    · rfl
  simp only [parseNatPart, ht, hd, hne, Bool.false_eq_true, if_false]
  rw [digitRunVal_printNat]

theorem printNat_head (n : Nat) :
    ∃ c t, printNat n = c :: t ∧ c.isDigit = true := by
  cases hp : printNat n with
  | nil => exact absurd hp (printNat_ne_nil n)
  | cons c t =>
    exact ⟨c, t, rfl, printNat_digits n c (by rw [hp]; simp)⟩

theorem parseIntPart_printInt (i : Int) (rest : List Char)
    (hr : restOkForNum rest = true) :
    parseIntPart (printInt i ++ rest) = some (i, rest) := by
  cases i with
  | ofNat n =>
    obtain ⟨c, t, hct, hcd⟩ := printNat_head n
    have hcm : ¬(c = '-') := fun hc => by
      subst hc; exact absurd hcd (by decide)
    have harg : printInt (Int.ofNat n) ++ rest = c :: (t ++ rest) := by
      show printNat n ++ rest = c :: (t ++ rest)
      rw [hct]
      simp
    rw [harg]
    simp only [parseIntPart, if_neg hcm]
    have hnat : parseNatPart (c :: (t ++ rest)) = some (n, rest) := by
      rw [show c :: (t ++ rest) = printNat n ++ rest by rw [hct]; simp]
      exact parseNatPart_printNat n rest hr
    rw [hnat]
    rfl
  | negSucc m =>
    show parseIntPart ('-' :: printNat (m + 1) ++ rest) = some (Int.negSucc m, rest)
    simp only [List.cons_append, parseIntPart, if_pos rfl]
    rw [parseNatPart_printNat (m + 1) rest hr]
    have hneg : -(((m + 1 : Nat) : Int)) = Int.negSucc m := by
      rw [Int.negSucc_eq]
      push_cast
      ring
    simp [hneg]
    omega

theorem parseStrBody_escape (s : List Char) : ∀ rest : List Char,
    parseStrBody (escapeChars s ++ '\"' :: rest) = some (s, rest) := by
  induction s with
  | nil =>
    intro rest
    rw [show escapeChars [] ++ '\"' :: rest = '\"' :: rest by simp [escapeChars]]
    rw [parseStrBody.eq_def]
    simp
  | cons c t ih =>
    intro rest
    by_cases h : (c = '\"' ∨ c = '\\')
    · have he : escapeChar c = ['\\', c] := by
        rcases h with h | h <;> simp [escapeChar, h]
      rw [show escapeChars (c :: t) ++ '\"' :: rest
          = '\\' :: c :: (escapeChars t ++ '\"' :: rest) by simp [escapeChars, he]]
      rw [parseStrBody.eq_def]
      simp [ih rest]
    · push_neg at h
      have he : escapeChar c = [c] := by simp [escapeChar, h.1, h.2]
      rw [show escapeChars (c :: t) ++ '\"' :: rest
          = c :: (escapeChars t ++ '\"' :: rest) by simp [escapeChars, he]]
      rw [parseStrBody.eq_def]
      simp [h.1, h.2, ih rest]

theorem printInt_ne_nil (i : Int) : printInt i ≠ [] := by
  cases i with
  | ofNat n => exact printNat_ne_nil n
  | negSucc m => simp [printInt]

theorem printInt_head (i : Int) :
    ∃ c t, printInt i = c :: t ∧ (c = '-' ∨ c.isDigit = true) := by
  cases i with
  | ofNat n =>
    obtain ⟨c, t, hct, hcd⟩ := printNat_head n
    exact ⟨c, t, hct, Or.inr hcd⟩
  | negSucc m => exact ⟨'-', printNat (m + 1), rfl, Or.inl rfl⟩

theorem numHead_ne {c : Char} (h : c = '-' ∨ c.isDigit = true) :
    c ≠ 'n' ∧ c ≠ 't' ∧ c ≠ 'f' ∧ c ≠ '\"' ∧ c ≠ '[' ∧ c ≠ '\x7b' := by
  rcases h with h | h
  · subst h
    exact ⟨by decide, by decide, by decide, by decide, by decide, by decide⟩
  · obtain ⟨h1, h2, h3, h4, h5, h6, _, _, _⟩ := isDigit_ne_special h
    exact ⟨h1, h2, h3, h4, h5, h6⟩

theorem printJson_head_cases (v : Json) :
    ∃ c t, printJson v = c :: t
      ∧ (c = 'n' ∨ c = 't' ∨ c = 'f' ∨ c = '\"' ∨ c = '[' ∨ c = '\x7b'
        ∨ c = '-' ∨ c.isDigit = true) := by
  cases v with
  | null => exact ⟨'n', ['u', 'l', 'l'], rfl, by tauto⟩
  | bool b =>
    cases b with
    | true => exact ⟨'t', ['r', 'u', 'e'], rfl, by tauto⟩
    | false => exact ⟨'f', ['a', 'l', 's', 'e'], rfl, by tauto⟩
  | num i =>
    obtain ⟨c, t, hct, hc⟩ := printInt_head i
    exact ⟨c, t, by simp [printJson, hct], by tauto⟩
  | str s =>
    exact ⟨'\"', escapeChars s.data ++ ['\"'], by simp [printJson, printStr], by tauto⟩
  | arr xs => exact ⟨'[', printArrItems xs ++ [']'], by simp [printJson], by tauto⟩
  | obj fs => exact ⟨'\x7b', printObjItems fs ++ ['\x7d'], by simp [printJson], by tauto⟩

theorem printJson_append_head (v : Json) (x : List Char) :
    ∃ c t, printJson v ++ x = c :: t ∧ c ≠ ']' ∧ c ≠ '\x7d' := by
  obtain ⟨c, t, hct, hc⟩ := printJson_head_cases v
  refine ⟨c, t ++ x, by rw [hct]; simp, ?_, ?_⟩ <;>
    rcases hc with h | h | h | h | h | h | h | h <;>
      first
        | (subst h; decide)
        | (obtain ⟨_, _, _, _, _, _, _, h8, h9⟩ := isDigit_ne_special h;
           first | exact h8 | exact h9)

theorem printArrItems_cons_shape (x : Json) (xs : List Json) :
    ∃ s, printArrItems (x :: xs) = printJson x ++ s := by
  cases xs with
  | nil => exact ⟨[], by simp [printArrItems]⟩
  | cons y ys => exact ⟨',' :: printArrItems (y :: ys), by simp [printArrItems]⟩

theorem printObjItems_cons_shape (k : String) (v : Json)
    (fs : List (String × Json)) :
    ∃ s, printObjItems ((k, v) :: fs) = '\"' :: s := by
  cases fs with
  | nil =>
    exact ⟨escapeChars k.data ++ ['\"'] ++ ':' :: printJson v,
      by simp [printObjItems, printStr]⟩
  | cons f fs' =>
    exact ⟨escapeChars k.data ++ ['\"']
        ++ ':' :: (printJson v ++ ',' :: printObjItems (f :: fs')),
      by rcases f with ⟨k2, v2⟩; simp [printObjItems, printStr]⟩

theorem sizeV_pos (v : Json) : 1 ≤ sizeV v := by
  cases v <;> simp [sizeV]

mutual
theorem sizeV_le : ∀ v : Json, sizeV v ≤ (printJson v).length
  | .null => by simp [sizeV, printJson]
  | .bool b => by cases b <;> simp [sizeV, printJson]
  | .num i => by
    simp only [sizeV, printJson]
    exact List.length_pos.mpr (printInt_ne_nil i)
  | .str s => by
    simp only [sizeV, printJson, printStr, List.length_cons]
    omega
  | .arr xs => by
    have h := sizeL_le xs
    simp only [sizeV, printJson, List.length_cons, List.length_append,
      List.length_singleton]
    omega
  | .obj fs => by
    have h := sizeF_le fs
    simp only [sizeV, printJson, List.length_cons, List.length_append,
      List.length_singleton]
    omega
theorem sizeL_le : ∀ xs : List Json, sizeL xs ≤ (printArrItems xs).length + 1
  | [] => by simp [sizeL, printArrItems]
  | [x] => by
    have h := sizeV_le x
    simp only [sizeL, printArrItems]
    omega
  | x :: y :: ys => by
    have h1 := sizeV_le x
    have h2 := sizeL_le (y :: ys)
    simp only [sizeL] at h2 ⊢
    simp only [printArrItems, List.length_append, List.length_cons]
    omega
theorem sizeF_le : ∀ fs : List (String × Json),
    sizeF fs ≤ (printObjItems fs).length + 1
  | [] => by simp [sizeF, printObjItems]
  | [(k, v)] => by
    have h := sizeV_le v
    simp only [sizeF, printObjItems, List.length_append, List.length_cons]
    omega
  | (k, v) :: (k2, v2) :: fs => by
    have h1 := sizeV_le v
    have h2 := sizeF_le ((k2, v2) :: fs)
    simp only [sizeF] at h2 ⊢
    simp only [printObjItems, List.length_append, List.length_cons]
    omega
end

theorem parseElems_succ (fuel : Nat) (l : List Char) :
    parseElems (fuel + 1) l = (parseVal fuel l).bind (fun p =>
      match p.2 with
      | ',' :: r2 => (parseElems fuel r2).map (fun q => (p.1 :: q.1, q.2))
      | ']' :: r2 => some ([p.1], r2)
      | _ => none) := by
  rw [parseElems.eq_def]

theorem parseFields_succ (fuel : Nat) (r0 : List Char) :
    parseFields (fuel + 1) ('\"' :: r0) = (parseStrBody r0).bind (fun pk =>
      match pk.2 with
      | ':' :: r2 => (parseVal fuel r2).bind (fun pv =>
          match pv.2 with
          | ',' :: r4 => (parseFields fuel r4).map
              (fun q => ((String.mk pk.1, pv.1) :: q.1, q.2))
          | '\x7d' :: r4 => some ([(String.mk pk.1, pv.1)], r4)
          | _ => none)
      | _ => none) := by
  rw [parseFields.eq_def]
  rfl

mutual
theorem rtVal : ∀ (v : Json) (fuel : Nat) (rest : List Char),
    sizeV v ≤ fuel → restOkForNum rest = true →
    parseVal fuel (printJson v ++ rest) = some (v, rest)
  | v, 0, rest, hf, _ => by
    have := sizeV_pos v
    omega
  | .null, fuel + 1, rest, _, _ => by
    rw [show printJson Json.null ++ rest = 'n' :: 'u' :: 'l' :: 'l' :: rest from rfl]
    rw [parseVal.eq_def]
    simp
  | .bool true, fuel + 1, rest, _, _ => by
    rw [show printJson (Json.bool true) ++ rest = 't' :: 'r' :: 'u' :: 'e' :: rest from rfl]
    rw [parseVal.eq_def]
    simp
  | .bool false, fuel + 1, rest, _, _ => by
    rw [show printJson (Json.bool false) ++ rest
        = 'f' :: 'a' :: 'l' :: 's' :: 'e' :: rest from rfl]
    rw [parseVal.eq_def]
    simp
  | .num i, fuel + 1, rest, _, hr => by
    obtain ⟨c, t, hct, hc⟩ := printInt_head i
    obtain ⟨h1, h2, h3, h4, h5, h6⟩ := numHead_ne hc
    rw [show printJson (Json.num i) ++ rest = c :: (t ++ rest) by simp [printJson, hct]]
    rw [parseVal.eq_def]
    simp only [if_neg h1, if_neg h2, if_neg h3, if_neg h4, if_neg h5, if_neg h6]
    rw [show c :: (t ++ rest) = printInt i ++ rest by rw [hct]; simp]
    rw [parseIntPart_printInt i rest hr]
    rfl
  | .str s, fuel + 1, rest, _, _ => by
    rw [show printJson (Json.str s) ++ rest
        = '\"' :: (escapeChars s.data ++ '\"' :: rest) by simp [printJson, printStr]]
    rw [parseVal.eq_def]
    simp [parseStrBody_escape]
  | .arr [], fuel + 1, rest, _, _ => by
    rw [show printJson (Json.arr []) ++ rest = '[' :: ']' :: rest by
      simp [printJson, printArrItems]]
    rw [parseVal.eq_def]
    simp
  | .arr (x :: xs), fuel + 1, rest, hf, _ => by
    have hsize : sizeL (x :: xs) ≤ fuel := by
      simp only [sizeV] at hf
      omega
    obtain ⟨s, hs⟩ := printArrItems_cons_shape x xs
    obtain ⟨c, t, hct, hc1, hc2⟩ := printJson_append_head x (s ++ ']' :: rest)
    have hshape : printArrItems (x :: xs) ++ ']' :: rest = c :: t := by
      rw [hs, List.append_assoc, hct]
    rw [show printJson (Json.arr (x :: xs)) ++ rest
        = '[' :: (printArrItems (x :: xs) ++ ']' :: rest) by simp [printJson]]
    rw [parseVal.eq_def]
    have hhead : (printArrItems (x :: xs) ++ ']' :: rest).head? ≠ some ']' := by
      rw [hshape]
      simp [hc1]
    simp only [if_neg (by decide : ¬('[' = 'n')), if_neg (by decide : ¬('[' = 't')),
      if_neg (by decide : ¬('[' = 'f')), if_neg (by decide : ¬('[' = '\"')),
      if_pos rfl, if_neg hhead]
    rw [rtElems x xs fuel rest hsize]
    rfl
  | .obj [], fuel + 1, rest, _, _ => by
    rw [show printJson (Json.obj []) ++ rest = '\x7b' :: '\x7d' :: rest by
      simp [printJson, printObjItems]]
    rw [parseVal.eq_def]
    simp
  | .obj ((k, v) :: fs), fuel + 1, rest, hf, _ => by
    have hsize : sizeF ((k, v) :: fs) ≤ fuel := by
      simp only [sizeV] at hf
      omega
    obtain ⟨s, hs⟩ := printObjItems_cons_shape k v fs
    have hshape : printObjItems ((k, v) :: fs) ++ '\x7d' :: rest
        = '\"' :: (s ++ '\x7d' :: rest) := by
      rw [hs]
      simp
    rw [show printJson (Json.obj ((k, v) :: fs)) ++ rest
        = '\x7b' :: (printObjItems ((k, v) :: fs) ++ '\x7d' :: rest) by simp [printJson]]
    rw [parseVal.eq_def]
    have hhead : (printObjItems ((k, v) :: fs) ++ '\x7d' :: rest).head? ≠ some '\x7d' := by
      rw [hshape]
      simp
    simp only [if_neg (by decide : ¬('\x7b' = 'n')), if_neg (by decide : ¬('\x7b' = 't')),
      if_neg (by decide : ¬('\x7b' = 'f')), if_neg (by decide : ¬('\x7b' = '\"')),
      if_neg (by decide : ¬('\x7b' = '[')), if_pos rfl, if_neg hhead]
    rw [rtFields k v fs fuel rest hsize]
    rfl
theorem rtElems : ∀ (x : Json) (xs : List Json) (fuel : Nat) (rest : List Char),
    sizeL (x :: xs) ≤ fuel →
    parseElems fuel (printArrItems (x :: xs) ++ ']' :: rest) = some (x :: xs, rest)
  | x, xs, 0, rest, hf => by
    simp only [sizeL] at hf
    omega
  | x, [], fuel + 1, rest, hf => by
    have hx : sizeV x ≤ fuel := by
      simp only [sizeL] at hf
      omega
    rw [show printArrItems [x] ++ ']' :: rest = printJson x ++ ']' :: rest by
      simp [printArrItems]]
    rw [parseElems_succ, rtVal x fuel (']' :: rest) hx (by rfl)]
    rfl
  | x, y :: ys, fuel + 1, rest, hf => by
    have hx : sizeV x ≤ fuel := by
      simp only [sizeL] at hf
      omega
    have hys : sizeL (y :: ys) ≤ fuel := by
      simp only [sizeL] at hf ⊢
      omega
    rw [show printArrItems (x :: y :: ys) ++ ']' :: rest
        = printJson x ++ (',' :: (printArrItems (y :: ys) ++ ']' :: rest)) by
      simp [printArrItems]]
    rw [parseElems_succ,
      rtVal x fuel (',' :: (printArrItems (y :: ys) ++ ']' :: rest)) hx (by rfl)]
    show (parseElems fuel (printArrItems (y :: ys) ++ ']' :: rest)).map
        (fun q => (x :: q.1, q.2)) = some (x :: y :: ys, rest)
    rw [rtElems y ys fuel rest hys]
    rfl
theorem rtFields : ∀ (k : String) (v : Json) (fs : List (String × Json))
    (fuel : Nat) (rest : List Char),
    sizeF ((k, v) :: fs) ≤ fuel →
    parseFields fuel (printObjItems ((k, v) :: fs) ++ '\x7d' :: rest)
      = some ((k, v) :: fs, rest)
  | k, v, fs, 0, rest, hf => by
    simp only [sizeF] at hf
    omega
  | k, v, [], fuel + 1, rest, hf => by
    have hv : sizeV v ≤ fuel := by
      simp only [sizeF] at hf
      omega
    rw [show printObjItems [(k, v)] ++ '\x7d' :: rest
        = '\"' :: (escapeChars k.data ++ '\"' :: (':' :: (printJson v ++ '\x7d' :: rest))) by
      simp [printObjItems, printStr]]
    rw [parseFields_succ,
      parseStrBody_escape k.data (':' :: (printJson v ++ '\x7d' :: rest))]
    show (parseVal fuel (printJson v ++ '\x7d' :: rest)).bind _ = _
    rw [rtVal v fuel ('\x7d' :: rest) hv (by rfl)]
    rfl
  | k, v, (k2, v2) :: fs, fuel + 1, rest, hf => by
    have hv : sizeV v ≤ fuel := by
      simp only [sizeF] at hf
      omega
    have hfs : sizeF ((k2, v2) :: fs) ≤ fuel := by
      simp only [sizeF] at hf ⊢
      omega
    rw [show printObjItems ((k, v) :: (k2, v2) :: fs) ++ '\x7d' :: rest
        = '\"' :: (escapeChars k.data ++ '\"' :: (':' :: (printJson v
            ++ (',' :: (printObjItems ((k2, v2) :: fs) ++ '\x7d' :: rest))))) by
      simp [printObjItems, printStr]]
    rw [parseFields_succ,
      parseStrBody_escape k.data
        (':' :: (printJson v ++ (',' :: (printObjItems ((k2, v2) :: fs) ++ '\x7d' :: rest))))]
    show (parseVal fuel (printJson v
        ++ (',' :: (printObjItems ((k2, v2) :: fs) ++ '\x7d' :: rest)))).bind _ = _
    rw [rtVal v fuel (',' :: (printObjItems ((k2, v2) :: fs) ++ '\x7d' :: rest)) hv (by rfl)]
    show (parseFields fuel (printObjItems ((k2, v2) :: fs) ++ '\x7d' :: rest)).map _ = _
    rw [rtFields k2 v2 fs fuel rest hfs]
    rfl
end

theorem states_string_to_json_serialize (v : Json) :
    states_string_to_json (serialize v) = some v := by
  have hlen : sizeV v ≤ (printJson v).length + 1 := by
    have := sizeV_le v
    omega
  have h := rtVal v ((printJson v).length + 1) [] hlen (by rfl)
  rw [List.append_nil] at h
  show (match parseVal ((printJson v).length + 1) (printJson v) with
    | some (w, []) => some w
    | _ => none) = some v
  rw [h]

/-- C6: for every bucket, key and JSON value `v`, running the
`put_payload(bucket, v)` chain and then the `get_payload(bucket, key)`
chain with the same key yields a context value deep-equal to `v`:
`get_payload` parses the fetched body with `States.StringToJson`, so the
caller receives the structured value, never the serialized string. -/
theorem put_get_payload_roundtrip :
    ∀ (store : S3Store) (bucket key : String) (v : Json),
      get_payload_result (put_payload_store store bucket key v) bucket key = some v := by
  intro store bucket key v
  simp [get_payload_result, put_payload_store, states_string_to_json_serialize]
